import Mathlib

/-!
Shallow embedding of the data-shaping core of the Blog1 video directory:
the category reconciler (`categories` / the category-collection part of
`loadVideos` in `src/app/page.tsx`), the video filter (`filterVideos`),
the keyword auto-detector (`detectCategoriesFromContent` in the admin
form component), and the duration formatter (`formatDuration`).

JavaScript runtime primitives used by that code are modelled explicitly:
`String.prototype.trim` as `jsTrim`, `String.prototype.toLowerCase` as
`jsLower`, `String.prototype.includes` as `isSubstr`, `Array.prototype.indexOf`
as `jsIndexOf`, `String.prototype.localeCompare` as `localeCompare`
(code-point comparison), and the stable `Array.prototype.sort` as
`List.insertionSort` (insertion sort is stable, and a stable sort is
uniquely determined by a consistent comparator, so this matches the
engine's stable sort).  JS numbers on digit strings are modelled as `Nat`.
-/

namespace Blog1

/-- `String.prototype.trim`: drop leading and trailing whitespace. -/
def jsTrim (s : String) : String :=
  ⟨((s.data.dropWhile Char.isWhitespace).reverse.dropWhile Char.isWhitespace).reverse⟩

/-- `String.prototype.toLowerCase`, character by character. -/
def jsLower (s : String) : String :=
  ⟨s.data.map Char.toLower⟩

/-- `String.prototype.includes` on character lists: `needle` occurs
contiguously inside the second argument. -/
def isSubstr (needle : List Char) : List Char → Bool
  | [] => needle.isEmpty
  | c :: rest => needle.isPrefixOf (c :: rest) || isSubstr needle rest

/-- `hay.toLowerCase().includes(needle.toLowerCase())`, the case-insensitive
substring test used by the search filter. -/
def occursIn (needle hay : String) : Bool :=
  isSubstr (jsLower needle).data (jsLower hay).data

/-- `content.includes(k)` for an already lower-cased `content`, as used by the
keyword auto-detector. -/
def hasKw (content k : String) : Bool :=
  isSubstr k.data content.data

/-- The `Video` record of `src/lib/database` as read by `page.tsx`:
`thumbnail`, `tags` and `duration` may be absent. -/
structure Video where
  id : String
  title : String
  description : String
  videoUrl : String
  thumbnail : Option String
  category : String
  tags : Option (List String)
  duration : Option String
deriving DecidableEq

/-- The fixed baseline taxonomy (`staticCategories` in `page.tsx`; the local
`order` array of the sort comparator has exactly the same elements). -/
def staticCategories : List String :=
  ["All", "Music", "Interviews", "Podcasts", "Freestyle", "Off The Porch"]

/-- `[...new Set(xs)]` with an explicit seen-accumulator: keeps the first
occurrence of each element, in order. -/
def dedupAux : List String → List String → List String
  | [], _ => []
  | a :: l, seen => if a ∈ seen then dedupAux l seen else a :: dedupAux l (a :: seen)

/-- `[...new Set(xs)]`: de-duplicate keeping first occurrences. -/
def dedupFirst (l : List String) : List String :=
  dedupAux l []

/-- `Array.prototype.indexOf`: index of the first occurrence, `-1` if absent. -/
def jsIndexOf (l : List String) (a : String) : Int :=
  match l with
  | [] => -1
  | b :: rest =>
    if a = b then 0
    else
      let r := jsIndexOf rest a
      if r = -1 then -1 else r + 1

/-- `String.prototype.localeCompare`, modelled as code-point comparison. -/
def localeCompare (a b : String) : Int :=
  if a < b then -1 else if b < a then 1 else 0

/-- The category sort comparator of `page.tsx` (lines 40-46): entries of the
preferred-order list sort by index, they precede everything else, and the
rest compare by `localeCompare`. -/
def compareCats (a b : String) : Int :=
  let aIndex := jsIndexOf staticCategories a
  let bIndex := jsIndexOf staticCategories b
  if aIndex ≠ -1 ∧ bIndex ≠ -1 then aIndex - bIndex
  else if aIndex ≠ -1 then -1
  else if bIndex ≠ -1 then 1
  else localeCompare a b

/-- "`a` sorts no later than `b`" for the category comparator. -/
def catle (a b : String) : Prop :=
  compareCats a b ≤ 0

instance : DecidableRel catle :=
  fun a b => inferInstanceAs (Decidable (compareCats a b ≤ 0))

/-- Default-comparator string order used by `allUniqueCategories.sort()`. -/
def strle (a b : String) : Prop :=
  a ≤ b

instance : DecidableRel strle :=
  fun a b => inferInstanceAs (Decidable (a ≤ b))

/-- `loadVideos` line 85: distinct non-empty `category` field values. -/
def categoryFromField (videos : List Video) : List String :=
  (dedupFirst (videos.map (fun v => v.category))).filter (fun s => s != "")

/-- `loadVideos` line 86: distinct non-empty entries of all `tags` arrays
(an absent `tags` array contributes nothing). -/
def categoriesFromTags (videos : List Video) : List String :=
  (dedupFirst (videos.flatMap (fun v => v.tags.getD []))).filter (fun s => s != "")

/-- `loadVideos` line 87: the union of the two sources. -/
def allUniqueCategories (videos : List Video) : List String :=
  (dedupFirst (categoryFromField videos ++ categoriesFromTags videos)).filter
    (fun s => s != "")

/-- The category reconciler: `dynamicCategories` as set by `loadVideos`
(lines 95-98; it stays `[]` when no category is observed) merged with the
static list by the `categories` computation of `page.tsx` (lines 37-48). -/
def categories (videos : List Video) : List String :=
  let dynamicCategories :=
    if (allUniqueCategories videos).length > 0 then
      "All" :: List.insertionSort strle (allUniqueCategories videos)
    else []
  if dynamicCategories.length > 0 then
    List.insertionSort catle
      ("All" :: dedupFirst (staticCategories.tail ++ dynamicCategories.tail))
  else staticCategories

/-- The combined keep-predicate of the two filter stages of `filterVideos`:
category sentinel or category/tag match, and empty-after-trim search term or
case-insensitive occurrence in title, description or some tag. -/
def keepVideo (selectedCategory searchTerm : String) (v : Video) : Bool :=
  (selectedCategory == "All" || v.category == selectedCategory ||
      (v.tags.getD []).contains selectedCategory) &&
    (jsTrim searchTerm == "" || occursIn searchTerm v.title ||
      occursIn searchTerm v.description ||
      (v.tags.getD []).any (fun t => occursIn searchTerm t))

/-- The video filter of `page.tsx` (lines 129-156): a category stage (skipped
for the sentinel `"All"`) followed by a text stage (skipped when the trimmed
search term is empty; note the match itself uses the untrimmed term). -/
def filterVideos (videos : List Video) (selectedCategory searchTerm : String) :
    List Video :=
  let filtered :=
    if selectedCategory != "All" then
      videos.filter (fun v =>
        v.category == selectedCategory || (v.tags.getD []).contains selectedCategory)
    else videos
  if jsTrim searchTerm != "" then
    filtered.filter (fun v =>
      occursIn searchTerm v.title || occursIn searchTerm v.description ||
        (v.tags.getD []).any (fun t => occursIn searchTerm t))
  else filtered

/-- The keyword auto-detector of the admin form component
(`detectCategoriesFromContent`). -/
def detectCategoriesFromContent (title description : String) : List String :=
  let content := jsLower (title ++ " " ++ description)
  let detected :=
    (if hasKw content "music" || hasKw content "song" || hasKw content "album" ||
        hasKw content "artist" || hasKw content "beat" || hasKw content "track" then
      ["Music"] else []) ++
    (if hasKw content "interview" || hasKw content "conversation" ||
        hasKw content "talk" || hasKw content "discussion" then
      ["Interviews"] else []) ++
    (if hasKw content "podcast" || hasKw content "episode" || hasKw content "show" then
      ["Podcasts"] else []) ++
    (if hasKw content "freestyle" || hasKw content "cypher" || hasKw content "bars" ||
        hasKw content "rap" || hasKw content "flow" then
      ["Freestyle"] else []) ++
    (if hasKw content "off the porch" || hasKw content "porch" ||
        hasKw content "street" || hasKw content "hood" then
      ["Off The Porch"] else [])
  if detected.length > 0 then detected else ["Music"]

/-- The detector's fixed keyword sets, per taxonomy category, in taxonomy
order (from the condition chain of `detectCategoriesFromContent`). -/
def taxonomyKeywords : List (String × List String) :=
  [("Music", ["music", "song", "album", "artist", "beat", "track"]),
   ("Interviews", ["interview", "conversation", "talk", "discussion"]),
   ("Podcasts", ["podcast", "episode", "show"]),
   ("Freestyle", ["freestyle", "cypher", "bars", "rap", "flow"]),
   ("Off The Porch", ["off the porch", "porch", "street", "hood"])]

/-- The taxonomy categories (taxonomy order) whose keyword set has a match in
the lower-cased combination of title and description. -/
def matchedCategories (title description : String) : List String :=
  let content := jsLower (title ++ " " ++ description)
  (taxonomyKeywords.filter (fun p => p.2.any (fun k => hasKw content k))).map
    (fun p => p.1)

/-- `parseInt` on a run of decimal digits. -/
def digitsToNat (ds : List Char) : Nat :=
  ds.foldl (fun n c => n * 10 + (c.toNat - '0'.toNat)) 0

/-- One optional regex group `(?:(\d+)X)?`: a maximal non-empty digit run
immediately followed by the marker is consumed and captured, anything else
leaves the input untouched. -/
def takeComponent (marker : Char) (cs : List Char) : Option Nat × List Char :=
  let ds := cs.takeWhile Char.isDigit
  let rest := cs.dropWhile Char.isDigit
  if ds.isEmpty then (none, cs)
  else
    match rest with
    | [] => (none, cs)
    | m :: rest2 => if m = marker then (some (digitsToNat ds), rest2) else (none, cs)

/-- The unanchored literal `PT` of the duration regex: the remainder after the
first occurrence of `"PT"`, or `none` when there is none. -/
def afterPT : List Char → Option (List Char)
  | [] => none
  | c :: rest =>
    if c = 'P' ∧ rest.head? = some 'T' then some rest.tail else afterPT rest

/-- `duration.match(/PT(?:(\d+)H)?(?:(\d+)M)?(?:(\d+)S)?/)` followed by the
three `parseInt`-or-0 reads: hours, minutes, seconds. -/
def parsePT (s : String) : Option (Nat × Nat × Nat) :=
  match afterPT s.data with
  | none => none
  | some rest =>
    let hPart := takeComponent 'H' rest
    let mPart := takeComponent 'M' hPart.2
    let sPart := takeComponent 'S' mPart.2
    some (hPart.1.getD 0, mPart.1.getD 0, sPart.1.getD 0)

/-- `n.toString().padStart(2, '0')` for a natural number. -/
def pad2 (n : Nat) : String :=
  if n < 10 then "0" ++ toString n else toString n

/-- The duration formatter of `page.tsx` (lines 191-207). -/
def formatDuration : Option String → Option String
  | none => none
  | some d =>
    if d = "" then none
    else
      match parsePT d with
      | none => none
      | some (h, m, s) =>
        if h > 0 then some (toString h ++ ":" ++ pad2 m ++ ":" ++ pad2 s)
        else some (toString m ++ ":" ++ pad2 s)

/-! ### De-duplication lemmas -/

lemma mem_dedupAux (x : String) :
    ∀ (l seen : List String), x ∈ dedupAux l seen ↔ x ∈ l ∧ x ∉ seen := by
  intro l
  induction l with
  | nil => intro seen; simp [dedupAux]
  | cons a l ih =>
    intro seen
    by_cases h : a ∈ seen
    · rw [dedupAux, if_pos h, ih]
      constructor
      · rintro ⟨hl, hs⟩; exact ⟨List.mem_cons_of_mem a hl, hs⟩
      · rintro ⟨hal, hs⟩
        rcases List.mem_cons.mp hal with rfl | hl
        · exact absurd h hs
        · exact ⟨hl, hs⟩
    · rw [dedupAux, if_neg h]
      constructor
      · intro hx
        rcases List.mem_cons.mp hx with rfl | hx
        · exact ⟨List.mem_cons_self _ _, h⟩
        · obtain ⟨hl, hs⟩ := (ih (a :: seen)).mp hx
          exact ⟨List.mem_cons_of_mem a hl,
            fun hmem => hs (List.mem_cons_of_mem a hmem)⟩
      · rintro ⟨hal, hs⟩
        rcases List.mem_cons.mp hal with rfl | hl
        · exact List.mem_cons_self _ _
        · by_cases hxa : x = a
          · subst hxa; exact List.mem_cons_self _ _
          · exact List.mem_cons_of_mem a ((ih (a :: seen)).mpr
              ⟨hl, fun hmem => by
                rcases List.mem_cons.mp hmem with h1 | h1
                · exact hxa h1
                · exact hs h1⟩)

lemma nodup_dedupAux : ∀ (l seen : List String), (dedupAux l seen).Nodup := by
  intro l
  induction l with
  | nil => intro seen; simp [dedupAux]
  | cons a l ih =>
    intro seen
    by_cases h : a ∈ seen
    · rw [dedupAux, if_pos h]; exact ih seen
    · rw [dedupAux, if_neg h]
      refine List.nodup_cons.mpr ⟨?_, ih (a :: seen)⟩
      intro hmem
      exact ((mem_dedupAux a l (a :: seen)).mp hmem).2 (List.mem_cons_self _ _)

lemma mem_dedupFirst (x : String) (l : List String) :
    x ∈ dedupFirst l ↔ x ∈ l := by
  rw [dedupFirst, mem_dedupAux]
  simp

lemma nodup_dedupFirst (l : List String) : (dedupFirst l).Nodup :=
  nodup_dedupAux l []

/-! ### Comparator lemmas -/

lemma jsIndexOf_neg_one_or_nonneg (a : String) :
    ∀ l : List String, jsIndexOf l a = -1 ∨ 0 ≤ jsIndexOf l a := by
  intro l
  induction l with
  | nil => left; rfl
  | cons b rest ih =>
    by_cases hab : a = b
    · right; rw [jsIndexOf, if_pos hab]
    · rw [jsIndexOf, if_neg hab]
      by_cases hr : jsIndexOf rest a = -1
      · left; rw [if_pos hr]
      · right
        rw [if_neg hr]
        rcases ih with h | h
        · exact absurd h hr
        · omega

lemma jsIndexOf_ne_neg_one_iff (a : String) :
    ∀ l : List String, jsIndexOf l a ≠ -1 ↔ a ∈ l := by
  intro l
  induction l with
  | nil => simp [jsIndexOf]
  | cons b rest ih =>
    by_cases hab : a = b
    · subst hab
      rw [jsIndexOf, if_pos rfl]
      simp
    · rw [jsIndexOf, if_neg hab]
      by_cases hr : jsIndexOf rest a = -1
      · rw [if_pos hr]
        simp only [ne_eq, not_true_eq_false, false_iff, List.mem_cons]
        rintro (rfl | hmem)
        · exact hab rfl
        · exact (ih.mpr hmem) hr
      · rw [if_neg hr]
        have hnn : 0 ≤ jsIndexOf rest a := by
          rcases jsIndexOf_neg_one_or_nonneg a rest with h | h
          · exact absurd h hr
          · exact h
        constructor
        · intro _; exact List.mem_cons_of_mem b (ih.mp hr)
        · intro _; omega

lemma compareCats_both_mem {a b : String} (ha : a ∈ staticCategories)
    (hb : b ∈ staticCategories) :
    compareCats a b = jsIndexOf staticCategories a - jsIndexOf staticCategories b := by
  rw [compareCats]
  rw [if_pos ⟨(jsIndexOf_ne_neg_one_iff a staticCategories).mpr ha,
    (jsIndexOf_ne_neg_one_iff b staticCategories).mpr hb⟩]

lemma compareCats_mem_not_mem {a b : String} (ha : a ∈ staticCategories)
    (hb : b ∉ staticCategories) : compareCats a b = -1 := by
  have ha' := (jsIndexOf_ne_neg_one_iff a staticCategories).mpr ha
  have hb' : jsIndexOf staticCategories b = -1 := by
    by_contra hc
    exact hb ((jsIndexOf_ne_neg_one_iff b staticCategories).mp hc)
  rw [compareCats]
  rw [if_neg (by tauto), if_pos ha']

lemma compareCats_not_mem_mem {a b : String} (ha : a ∉ staticCategories)
    (hb : b ∈ staticCategories) : compareCats a b = 1 := by
  have hb' := (jsIndexOf_ne_neg_one_iff b staticCategories).mpr hb
  have ha' : jsIndexOf staticCategories a = -1 := by
    by_contra hc
    exact ha ((jsIndexOf_ne_neg_one_iff a staticCategories).mp hc)
  rw [compareCats]
  rw [if_neg (by tauto), if_neg (by tauto), if_pos hb']

lemma compareCats_not_mem_not_mem {a b : String} (ha : a ∉ staticCategories)
    (hb : b ∉ staticCategories) : compareCats a b = localeCompare a b := by
  have ha' : jsIndexOf staticCategories a = -1 := by
    by_contra hc
    exact ha ((jsIndexOf_ne_neg_one_iff a staticCategories).mp hc)
  have hb' : jsIndexOf staticCategories b = -1 := by
    by_contra hc
    exact hb ((jsIndexOf_ne_neg_one_iff b staticCategories).mp hc)
  rw [compareCats]
  rw [if_neg (by tauto), if_neg (by tauto), if_neg (by tauto)]

lemma localeCompare_nonpos_iff (a b : String) : localeCompare a b ≤ 0 ↔ a ≤ b := by
  rw [localeCompare]
  rcases lt_trichotomy a b with h | h | h
  · rw [if_pos h]; simp [le_of_lt h]
  · subst h
    rw [if_neg (lt_irrefl a), if_neg (lt_irrefl a)]
    simp
  · rw [if_neg (not_lt_of_gt h), if_pos h]
    simp [not_le_of_gt h]

lemma jsIndexOf_static_inj {a b : String} (ha : a ∈ staticCategories)
    (hb : b ∈ staticCategories)
    (h : jsIndexOf staticCategories a = jsIndexOf staticCategories b) : a = b := by
  simp only [staticCategories, List.mem_cons, List.mem_singleton,
    List.not_mem_nil, or_false] at ha hb
  rcases ha with rfl | rfl | rfl | rfl | rfl | rfl <;>
    rcases hb with rfl | rfl | rfl | rfl | rfl | rfl <;> revert h <;> decide

lemma catle_total : ∀ a b : String, catle a b ∨ catle b a := by
  intro a b
  by_cases ha : a ∈ staticCategories <;> by_cases hb : b ∈ staticCategories
  · rw [catle, catle, compareCats_both_mem ha hb, compareCats_both_mem hb ha]
    omega
  · left; rw [catle, compareCats_mem_not_mem ha hb]; omega
  · right; rw [catle, compareCats_mem_not_mem hb ha]; omega
  · rw [catle, catle, compareCats_not_mem_not_mem ha hb,
      compareCats_not_mem_not_mem hb ha, localeCompare_nonpos_iff,
      localeCompare_nonpos_iff]
    exact le_total a b

lemma catle_trans : ∀ a b c : String, catle a b → catle b c → catle a c := by
  intro a b c hab hbc
  by_cases ha : a ∈ staticCategories <;> by_cases hb : b ∈ staticCategories <;>
    by_cases hc : c ∈ staticCategories
  · rw [catle, compareCats_both_mem ha hb] at hab
    rw [catle, compareCats_both_mem hb hc] at hbc
    rw [catle, compareCats_both_mem ha hc]
    omega
  · rw [catle, compareCats_mem_not_mem ha hc]; omega
  · rw [catle, compareCats_not_mem_mem hb hc] at hbc; omega
  · rw [catle, compareCats_mem_not_mem ha hc]; omega
  · rw [catle, compareCats_not_mem_mem ha hb] at hab; omega
  · rw [catle, compareCats_not_mem_mem ha hb] at hab; omega
  · rw [catle, compareCats_not_mem_mem hb hc] at hbc; omega
  · rw [catle, compareCats_not_mem_not_mem ha hb, localeCompare_nonpos_iff] at hab
    rw [catle, compareCats_not_mem_not_mem hb hc, localeCompare_nonpos_iff] at hbc
    rw [catle, compareCats_not_mem_not_mem ha hc, localeCompare_nonpos_iff]
    exact le_trans hab hbc

lemma catle_antisymm : ∀ a b : String, catle a b → catle b a → a = b := by
  intro a b hab hba
  by_cases ha : a ∈ staticCategories <;> by_cases hb : b ∈ staticCategories
  · rw [catle, compareCats_both_mem ha hb] at hab
    rw [catle, compareCats_both_mem hb ha] at hba
    exact jsIndexOf_static_inj ha hb (by omega)
  · rw [catle, compareCats_not_mem_mem hb ha] at hba; omega
  · rw [catle, compareCats_not_mem_mem ha hb] at hab; omega
  · rw [catle, compareCats_not_mem_not_mem ha hb, localeCompare_nonpos_iff] at hab
    rw [catle, compareCats_not_mem_not_mem hb ha, localeCompare_nonpos_iff] at hba
    exact le_antisymm hab hba

instance : IsTotal String catle := ⟨catle_total⟩

instance : IsTrans String catle := ⟨fun a b c => catle_trans a b c⟩

instance : IsAntisymm String catle := ⟨fun a b => catle_antisymm a b⟩

/-! ### Filter lemmas -/

lemma filterVideos_eq_filter (rs : List Video) (c s : String) :
    filterVideos rs c s = rs.filter (keepVideo c s) := by
  have hk : keepVideo c s = fun v =>
      ((c == "All" || v.category == c || (v.tags.getD []).contains c) &&
        (jsTrim s == "" || occursIn s v.title || occursIn s v.description ||
          (v.tags.getD []).any (fun t => occursIn s t))) := rfl
  rw [hk]
  simp only [filterVideos]
  by_cases hc : c = "All" <;> by_cases ht : jsTrim s = ""
  · subst hc
    simp [ht, List.filter_true]
  · subst hc
    have ht' : (jsTrim s == "") = false := beq_eq_false_iff_ne.mpr ht
    simp only [bne_self_eq_false, Bool.false_eq_true, if_false,
      bne_iff_ne, ne_eq, ht, not_false_eq_true, if_true]
    apply List.filter_congr
    intro v _
    simp [ht']
  · have hc' : (c != "All") = true := by simp [hc]
    have hc'' : (c == "All") = false := beq_eq_false_iff_ne.mpr hc
    rw [if_pos hc', if_neg (by simp [ht])]
    apply List.filter_congr
    intro v _
    simp [hc'', ht]
  · have hc' : (c != "All") = true := by simp [hc]
    have hc'' : (c == "All") = false := beq_eq_false_iff_ne.mpr hc
    have ht' : (jsTrim s == "") = false := beq_eq_false_iff_ne.mpr ht
    rw [if_pos hc', if_pos (by simp [ht]), List.filter_filter]
    apply List.filter_congr
    intro v _
    simp [hc'', ht', Bool.and_comm]

/-! ### Reconciler core lemma -/

lemma mem_static_of_mem_allUnique {rs : List Video}
    (hyp : ∀ v ∈ rs, v.category ∈ staticCategories ∧
      ∀ t ∈ v.tags.getD [], t ∈ staticCategories)
    {x : String} (hx : x ∈ allUniqueCategories rs) : x ∈ staticCategories := by
  rw [allUniqueCategories] at hx
  obtain ⟨hx, -⟩ := List.mem_filter.mp hx
  rw [mem_dedupFirst, List.mem_append] at hx
  rcases hx with hx | hx
  · rw [categoryFromField] at hx
    obtain ⟨hx, -⟩ := List.mem_filter.mp hx
    rw [mem_dedupFirst, List.mem_map] at hx
    obtain ⟨v, hv, rfl⟩ := hx
    exact (hyp v hv).1
  · rw [categoriesFromTags] at hx
    obtain ⟨hx, -⟩ := List.mem_filter.mp hx
    rw [mem_dedupFirst, List.mem_flatMap] at hx
    obtain ⟨v, hv, hxv⟩ := hx
    exact (hyp v hv).2 x hxv

lemma nodup_allUnique (rs : List Video) : (allUniqueCategories rs).Nodup :=
  (nodup_dedupFirst _).filter _

lemma static_head_tail : staticCategories = "All" :: staticCategories.tail := rfl

lemma categories_eq_sort (rs : List Video)
    (hA : (allUniqueCategories rs).length > 0) :
    categories rs = List.insertionSort catle
      ("All" :: dedupFirst (staticCategories.tail ++
        List.insertionSort strle (allUniqueCategories rs))) := by
  rw [categories, if_pos hA, if_pos (by simp), List.tail_cons]

lemma categories_of_baseline_subset (rs : List Video)
    (hyp : ∀ v ∈ rs, v.category ∈ staticCategories ∧
      ∀ t ∈ v.tags.getD [], t ∈ staticCategories) :
    categories rs = staticCategories ∨ categories rs = "All" :: staticCategories := by
  by_cases hA : (allUniqueCategories rs).length > 0
  · have hperm : (List.insertionSort strle (allUniqueCategories rs)).Perm
        (allUniqueCategories rs) :=
      List.perm_insertionSort strle (allUniqueCategories rs)
    set S : List String := List.insertionSort strle (allUniqueCategories rs) with hS
    have hSsub : ∀ x ∈ S, x ∈ staticCategories := by
      intro x hx
      exact mem_static_of_mem_allUnique hyp (hperm.mem_iff.mp hx)
    set D : List String := dedupFirst (staticCategories.tail ++ S) with hD
    have hcat : categories rs = List.insertionSort catle ("All" :: D) := by
      rw [categories, if_pos hA, if_pos (by simp)]
      rw [List.tail_cons]
    have hDnodup : D.Nodup := nodup_dedupFirst _
    have hDmem : ∀ x, x ∈ D ↔ x ∈ staticCategories.tail ∨ x ∈ S := by
      intro x
      rw [hD, mem_dedupFirst, List.mem_append]
    have htail_sub : ∀ x, x ∈ staticCategories.tail → x ∈ staticCategories := by
      intro x hx
      rw [static_head_tail]
      exact List.mem_cons_of_mem _ hx
    have hsorted := List.sorted_insertionSort catle ("All" :: D)
    have hperm2 := List.perm_insertionSort catle ("All" :: D)
    by_cases hAll : "All" ∈ S
    · right
      have hDperm : D.Perm staticCategories := by
        rw [List.perm_ext_iff_of_nodup hDnodup (by decide)]
        intro x
        rw [hDmem]
        constructor
        · rintro (hx | hx)
          · exact htail_sub x hx
          · exact hSsub x hx
        · intro hx
          rcases List.mem_cons.mp (static_head_tail ▸ hx) with rfl | hx
          · right; exact hAll
          · left; exact hx
      have hfinal : ("All" :: D).Perm ("All" :: staticCategories) :=
        hDperm.cons "All"
      refine hcat.trans (List.eq_of_perm_of_sorted (hperm2.trans hfinal) hsorted ?_)
      decide
    · left
      have hDperm : D.Perm staticCategories.tail := by
        rw [List.perm_ext_iff_of_nodup hDnodup (by decide)]
        intro x
        rw [hDmem]
        constructor
        · rintro (hx | hx)
          · exact hx
          · rcases List.mem_cons.mp (static_head_tail ▸ hSsub x hx) with rfl | hx2
            · exact absurd hx hAll
            · exact hx2
        · intro hx
          left; exact hx
      have hfinal : ("All" :: D).Perm staticCategories := by
        rw [static_head_tail]
        exact hDperm.cons "All"
      refine hcat.trans (List.eq_of_perm_of_sorted (hperm2.trans hfinal) hsorted ?_)
      decide
  · rw [categories, if_neg hA]
    left
    simp

/-! ### Duration parser lemmas -/

lemma infixPT_of_afterPT :
    ∀ cs r : List Char, afterPT cs = some r → ['P', 'T'] <:+: cs := by
  intro cs
  induction cs with
  | nil => intro r h; simp [afterPT] at h
  | cons c rest ih =>
    intro r h
    rw [afterPT] at h
    by_cases hcond : c = 'P' ∧ rest.head? = some 'T'
    · obtain ⟨rfl, hh⟩ := hcond
      obtain ⟨ys, rfl⟩ := List.head?_eq_some_iff.mp hh
      exact ⟨[], ys, rfl⟩
    · rw [if_neg hcond] at h
      obtain ⟨pre, post, hsplit⟩ := ih r h
      exact ⟨c :: pre, post, by rw [← hsplit]; rfl⟩

lemma afterPT_of_infixPT :
    ∀ cs : List Char, ['P', 'T'] <:+: cs → ∃ r, afterPT cs = some r := by
  intro cs
  induction cs with
  | nil =>
    rintro ⟨pre, post, hsplit⟩
    simp at hsplit
  | cons c rest ih =>
    intro h
    by_cases hcond : c = 'P' ∧ rest.head? = some 'T'
    · exact ⟨rest.tail, by rw [afterPT, if_pos hcond]⟩
    · obtain ⟨pre, post, hsplit⟩ := h
      cases pre with
      | nil =>
        simp only [List.nil_append, List.cons_append] at hsplit
        injection hsplit with hc1 hrest
        exact absurd ⟨hc1.symm, by rw [← hrest, List.head?_cons]⟩ hcond
      | cons b pre2 =>
        simp only [List.cons_append] at hsplit
        injection hsplit with hb1 hrest
        obtain ⟨r, hr⟩ := ih ⟨pre2, post, hrest⟩
        exact ⟨r, by rw [afterPT, if_neg hcond]; exact hr⟩

lemma parsePT_none_of_no_PT (s : String) (h : ¬ (['P', 'T'] <:+: s.data)) :
    parsePT s = none := by
  rw [parsePT]
  cases hA : afterPT s.data with
  | none => rfl
  | some r => exact absurd (infixPT_of_afterPT s.data r hA) h

lemma parsePT_some_of_PT (s : String) (h : ['P', 'T'] <:+: s.data) :
    ∃ trip, parsePT s = some trip := by
  obtain ⟨r, hr⟩ := afterPT_of_infixPT s.data h
  rw [parsePT, hr]
  exact ⟨_, rfl⟩

lemma ne_empty_of_parsePT_some (s : String) (trip : Nat × Nat × Nat)
    (h : parsePT s = some trip) : s ≠ "" := by
  intro hs
  subst hs
  simp [parsePT, afterPT] at h

lemma formatDuration_of_parsePT (s : String) (h m sec : Nat)
    (hp : parsePT s = some (h, m, sec)) :
    formatDuration (some s) =
      some (if h > 0 then toString h ++ ":" ++ pad2 m ++ ":" ++ pad2 sec
        else toString m ++ ":" ++ pad2 sec) := by
  have hs : s ≠ "" := ne_empty_of_parsePT_some s (h, m, sec) hp
  rw [formatDuration, if_neg hs, hp]
  by_cases h0 : h > 0 <;> simp [h0]

/-! ### Detector characterization -/

lemma detect_eq_matched (t d : String) :
    detectCategoriesFromContent t d =
      (if matchedCategories t d = [] then ["Music"] else matchedCategories t d) := by
  rw [detectCategoriesFromContent, matchedCategories, taxonomyKeywords]
  simp only [List.filter_cons, List.filter_nil, List.any_cons, List.any_nil,
    Bool.or_false]
  cases h1 : (hasKw (jsLower (t ++ " " ++ d)) "music" ||
      (hasKw (jsLower (t ++ " " ++ d)) "song" ||
        (hasKw (jsLower (t ++ " " ++ d)) "album" ||
          (hasKw (jsLower (t ++ " " ++ d)) "artist" ||
            (hasKw (jsLower (t ++ " " ++ d)) "beat" ||
              hasKw (jsLower (t ++ " " ++ d)) "track"))))) <;>
    cases h2 : (hasKw (jsLower (t ++ " " ++ d)) "interview" ||
      (hasKw (jsLower (t ++ " " ++ d)) "conversation" ||
        (hasKw (jsLower (t ++ " " ++ d)) "talk" ||
          hasKw (jsLower (t ++ " " ++ d)) "discussion"))) <;>
    cases h3 : (hasKw (jsLower (t ++ " " ++ d)) "podcast" ||
      (hasKw (jsLower (t ++ " " ++ d)) "episode" ||
        hasKw (jsLower (t ++ " " ++ d)) "show")) <;>
    cases h4 : (hasKw (jsLower (t ++ " " ++ d)) "freestyle" ||
      (hasKw (jsLower (t ++ " " ++ d)) "cypher" ||
        (hasKw (jsLower (t ++ " " ++ d)) "bars" ||
          (hasKw (jsLower (t ++ " " ++ d)) "rap" ||
            hasKw (jsLower (t ++ " " ++ d)) "flow")))) <;>
    cases h5 : (hasKw (jsLower (t ++ " " ++ d)) "off the porch" ||
      (hasKw (jsLower (t ++ " " ++ d)) "porch" ||
        (hasKw (jsLower (t ++ " " ++ d)) "street" ||
          hasKw (jsLower (t ++ " " ++ d)) "hood"))) <;>
    simp [h1, h2, h3, h4, h5, Bool.or_assoc]

/-! ### Concrete records used by the claim instances -/

/-- Record `A` of the spec's filter examples: category `"Music"`,
tags `["Music"]`. -/
def videoA : Video :=
  ⟨"a", "", "", "", none, "Music", some ["Music"], none⟩

/-- Record `B` of the spec's filter examples: category `"All"`,
tags `["Freestyle", "All"]`. -/
def videoB : Video :=
  ⟨"b", "", "", "", none, "All", some ["Freestyle", "All"], none⟩

/-- A record that carries the sentinel `"All"` both as its category field and
as a tag, as the admin form seeds every new record. -/
def videoAllTag : Video :=
  ⟨"v", "t", "", "", none, "All", some ["All"], none⟩

/-- A record whose title contains `"a"` but not `" a"`. -/
def videoBA : Video :=
  ⟨"c", "ba", "", "", none, "Music", some [], none⟩

/-! ### Claims -/

/-- Claim C1, counterexample: the claim says the reconciler output never
contains duplicate categories, including the sentinel `"All"`; but on a
single record carrying `"All"` as category and tag the output lists `"All"`
twice. -/
theorem claim_C1_counterexample :
    List.count "All" (categories [videoAllTag]) = 2 ∧
      ¬ (categories [videoAllTag]).Nodup := by
  decide

/-- Claim C1, amended: in the reconciler output every category other than the
sentinel `"All"` appears at most once, and `"All"` itself appears at most
twice (twice only when some record carries `"All"` as category or tag). -/
theorem claim_C1_amended :
    ∀ (rs : List Video) (c : String),
      (c ≠ "All" → List.count c (categories rs) ≤ 1) ∧
        List.count "All" (categories rs) ≤ 2 := by
  intro rs c
  by_cases hA : (allUniqueCategories rs).length > 0
  · rw [categories_eq_sort rs hA]
    set D : List String := dedupFirst (staticCategories.tail ++
      List.insertionSort strle (allUniqueCategories rs)) with hD
    have hperm := List.perm_insertionSort catle ("All" :: D)
    have hcnt : ∀ a : String, List.count a D ≤ 1 :=
      List.nodup_iff_count_le_one.mp (nodup_dedupFirst _)
    constructor
    · intro hc
      rw [hperm.count_eq c, List.count_cons,
        if_neg (by simp only [beq_iff_eq]; exact Ne.symm hc)]
      exact hcnt c
    · rw [hperm.count_eq "All", List.count_cons, if_pos (by simp)]
      have := hcnt "All"
      omega
  · have hstat : ∀ a : String, List.count a staticCategories ≤ 1 :=
      List.nodup_iff_count_le_one.mp (by decide)
    rw [categories, if_neg hA]
    constructor
    · intro _
      simpa using hstat c
    · have h2 : List.count "All" staticCategories ≤ 2 :=
        Nat.le_trans (hstat "All") (by omega)
      simpa using h2

/-- Claim C1, witness for the amended statement at a concrete input. -/
theorem claim_C1_witness :
    List.count "Music" (categories [videoAllTag]) ≤ 1 ∧
      List.count "All" (categories [videoAllTag]) ≤ 2 :=
  ⟨(claim_C1_amended [videoAllTag] "Music").1 (by decide),
    (claim_C1_amended [videoAllTag] "All").2⟩

/-- Claim C2: the filter output is exactly the stable filtering of the input
by the combined predicate (category sentinel or category/tag equality, and
empty-after-trim term or case-insensitive occurrence in title, description or
some tag), so a record appears in the output iff it is an input record
satisfying the predicate, and survivors keep their relative order; the four
spec examples evaluate as stated. -/
theorem claim_C2_filter :
    (∀ (rs : List Video) (c s : String),
        filterVideos rs c s = rs.filter (keepVideo c s)) ∧
      (∀ (rs : List Video) (c s : String) (v : Video),
        v ∈ filterVideos rs c s ↔ v ∈ rs ∧ keepVideo c s v = true) ∧
      filterVideos [videoA, videoB] "Music" "" = [videoA] ∧
      filterVideos [videoA, videoB] "All" "" = [videoA, videoB] ∧
      filterVideos [videoA, videoB] "All" "free" = [videoB] ∧
      filterVideos [videoA, videoB] "Freestyle" "" = [videoB] := by
  refine ⟨filterVideos_eq_filter, ?_, by decide, by decide, by decide, by decide⟩
  intro rs c s v
  rw [filterVideos_eq_filter, List.mem_filter]

/-- Claim C3, counterexample: the claim says the text stage matches against
the trimmed term, equivalently that filtering with a term equals filtering
with its trimmed value; but with the term `" a"` (trimmed: `"a"`) the code
drops a record whose title contains `"a"`, while the trimmed term keeps it. -/
theorem claim_C3_counterexample :
    filterVideos [videoBA] "All" " a" = [] ∧
      filterVideos [videoBA] "All" "a" = [videoBA] := by
  decide

/-- Claim C3, amended: trimming only decides whether the text stage runs; the
text stage itself matches records against the original untrimmed term: for a
term with non-empty trim, filtering equals the category stage alone followed
by the untrimmed-term text stage. -/
theorem claim_C3_amended :
    ∀ (rs : List Video) (c s : String), jsTrim s ≠ "" →
      filterVideos rs c s = (filterVideos rs c "").filter (fun v =>
        occursIn s v.title || occursIn s v.description ||
          (v.tags.getD []).any (fun t => occursIn s t)) := by
  intro rs c s hs
  simp only [filterVideos]
  have h1 : (jsTrim s != "") = true := by simp [hs]
  rw [if_pos h1, if_neg (show ¬ ((jsTrim "" != "") = true) by decide)]

/-- Claim C3, witness for the amended statement at a concrete input. -/
theorem claim_C3_witness :
    jsTrim "b" ≠ "" ∧
      filterVideos [videoBA] "All" "b" = (filterVideos [videoBA] "All" "").filter
        (fun v => occursIn "b" v.title || occursIn "b" v.description ||
          (v.tags.getD []).any (fun t => occursIn "b" t)) :=
  ⟨by decide, claim_C3_amended [videoBA] "All" "b" (by decide)⟩

/-- Claim C4: the duration formatter returns absent on absent input and on
any input without the literal `"PT"` (the only mandatory part of the
pattern); on a parse with hours positive it renders unpadded hours with
two-digit zero-padded minutes and seconds, on a parse with hours zero it
renders unpadded minutes with two-digit zero-padded seconds (missing
components default to 0); and the spec examples evaluate as stated. -/
theorem claim_C4_formatter :
    formatDuration none = none ∧
      (∀ s : String, ¬ (['P', 'T'] <:+: s.data) →
        formatDuration (some s) = none) ∧
      (∀ (s : String) (h m sec : Nat), parsePT s = some (h, m, sec) → 0 < h →
        formatDuration (some s) =
          some (toString h ++ ":" ++ pad2 m ++ ":" ++ pad2 sec)) ∧
      (∀ (s : String) (m sec : Nat), parsePT s = some (0, m, sec) →
        formatDuration (some s) = some (toString m ++ ":" ++ pad2 sec)) ∧
      formatDuration (some "PT4M13S") = some "4:13" ∧
      formatDuration (some "PT1H2M3S") = some "1:02:03" ∧
      formatDuration (some "garbage") = none := by
  refine ⟨rfl, ?_, ?_, ?_, by decide, by decide, by decide⟩
  · intro s hni
    by_cases hs : s = ""
    · subst hs; rfl
    · rw [formatDuration, if_neg hs, parsePT_none_of_no_PT s hni]
  · intro s h m sec hp h0
    rw [formatDuration_of_parsePT s h m sec hp, if_pos h0]
  · intro s m sec hp
    rw [formatDuration_of_parsePT s 0 m sec hp, if_neg (by decide)]

/-- Claim C4, witness for the hour-positive rendering clause at a concrete
input. -/
theorem claim_C4_witness :
    parsePT "PT2H3M4S" = some (2, 3, 4) ∧
      formatDuration (some "PT2H3M4S") =
        some (toString 2 ++ ":" ++ pad2 3 ++ ":" ++ pad2 4) :=
  ⟨by decide, claim_C4_formatter.2.2.1 "PT2H3M4S" 2 3 4 (by decide) (by decide)⟩

/-- Claim C5: the auto-detector returns exactly the taxonomy categories
(taxonomy order) whose keyword set matches the lower-cased combined
title/description, falling back to `["Music"]` when none matches, and is
never empty; the three spec examples evaluate as stated. -/
theorem claim_C5_detector :
    (∀ t d : String,
        (matchedCategories t d ≠ [] →
          detectCategoriesFromContent t d = matchedCategories t d) ∧
        (matchedCategories t d = [] →
          detectCategoriesFromContent t d = ["Music"]) ∧
        detectCategoriesFromContent t d ≠ []) ∧
      detectCategoriesFromContent "Freestyle cypher at the park" "" =
        ["Freestyle"] ∧
      detectCategoriesFromContent "" "" = ["Music"] ∧
      detectCategoriesFromContent "Weekly podcast interview episode" "" =
        ["Interviews", "Podcasts"] := by
  refine ⟨?_, by decide, by decide, by decide⟩
  intro t d
  have h := detect_eq_matched t d
  refine ⟨fun hm => by rw [h, if_neg hm], fun hm => by rw [h, if_pos hm], ?_⟩
  rw [h]
  by_cases hm : matchedCategories t d = []
  · rw [if_pos hm]; simp
  · rw [if_neg hm]; exact hm

/-- Claim C5, witness for the matched-categories clause at a concrete
input. -/
theorem claim_C5_witness :
    matchedCategories "song time" "" ≠ [] ∧
      detectCategoriesFromContent "song time" "" =
        matchedCategories "song time" "" :=
  ⟨by decide, (claim_C5_detector.1 "song time" "").1 (by decide)⟩

/-- Claim C6: the reconciler on no records returns exactly the fixed
baseline list; and for records whose categories and tags all lie in the
baseline it returns the baseline order unchanged, up to the sentinel `"All"`
being listed once more at the front. -/
theorem claim_C6_baseline :
    categories [] = staticCategories ∧
      ∀ rs : List Video,
        (∀ v ∈ rs, v.category ∈ staticCategories ∧
          ∀ t ∈ v.tags.getD [], t ∈ staticCategories) →
        (categories rs = staticCategories ∨
          categories rs = "All" :: staticCategories) :=
  ⟨rfl, categories_of_baseline_subset⟩

/-- Claim C6, witness at a concrete record list inside the baseline. -/
theorem claim_C6_witness :
    categories [videoA] = staticCategories ∨
      categories [videoA] = "All" :: staticCategories :=
  claim_C6_baseline.2 [videoA] (by decide)

/-- Claim C7: with a non-empty observed union, the reconciler output starts
with `"All"` and is ordered so that preferred-list entries (ordered by their
index) precede all others, which are ordered lexicographically among
themselves. -/
theorem claim_C7_order :
    ∀ rs : List Video, allUniqueCategories rs ≠ [] →
      (categories rs).head? = some "All" ∧
        List.Pairwise (fun a b =>
          (a ∈ staticCategories ∧ b ∈ staticCategories ∧
            jsIndexOf staticCategories a ≤ jsIndexOf staticCategories b) ∨
          (a ∈ staticCategories ∧ b ∉ staticCategories) ∨
          (a ∉ staticCategories ∧ b ∉ staticCategories ∧ a ≤ b))
          (categories rs) := by
  intro rs hne
  have hA : (allUniqueCategories rs).length > 0 := List.length_pos.mpr hne
  rw [categories_eq_sort rs hA]
  set L : List String := "All" :: dedupFirst (staticCategories.tail ++
    List.insertionSort strle (allUniqueCategories rs)) with hL
  have hsorted := List.sorted_insertionSort catle L
  have hperm := List.perm_insertionSort catle L
  constructor
  · have hmemAll : "All" ∈ List.insertionSort catle L :=
      hperm.mem_iff.mpr (List.mem_cons_self _ _)
    cases hout : List.insertionSort catle L with
    | nil => rw [hout] at hmemAll; simp at hmemAll
    | cons h t =>
      rw [hout] at hmemAll hsorted
      simp only [List.head?_cons, Option.some.injEq]
      rcases List.mem_cons.mp hmemAll with rfl | hmem
      · rfl
      · have hrel : catle h "All" := List.rel_of_sorted_cons hsorted "All" hmem
        by_cases hh : h ∈ staticCategories
        · rw [catle, compareCats_both_mem hh (by decide)] at hrel
          have hidx : jsIndexOf staticCategories "All" = 0 := by decide
          have hne1 := (jsIndexOf_ne_neg_one_iff h staticCategories).mpr hh
          have hnn := jsIndexOf_neg_one_or_nonneg h staticCategories
          have h0 : jsIndexOf staticCategories h = 0 := by omega
          exact jsIndexOf_static_inj hh (by decide) (by rw [h0, hidx])
        · rw [catle, compareCats_not_mem_mem hh (by decide)] at hrel
          exact absurd hrel (by decide)
  · refine List.Pairwise.imp ?_ hsorted
    intro a b hab
    by_cases ha : a ∈ staticCategories <;> by_cases hb : b ∈ staticCategories
    · rw [catle, compareCats_both_mem ha hb] at hab
      exact Or.inl ⟨ha, hb, by omega⟩
    · exact Or.inr (Or.inl ⟨ha, hb⟩)
    · rw [catle, compareCats_not_mem_mem ha hb] at hab
      exact absurd hab (by decide)
    · rw [catle, compareCats_not_mem_not_mem ha hb,
        localeCompare_nonpos_iff] at hab
      exact Or.inr (Or.inr ⟨ha, hb, hab⟩)

/-- Claim C7, witness at a concrete record list. -/
theorem claim_C7_witness :
    allUniqueCategories [videoA] ≠ [] ∧
      ((categories [videoA]).head? = some "All" ∧
        List.Pairwise (fun a b =>
          (a ∈ staticCategories ∧ b ∈ staticCategories ∧
            jsIndexOf staticCategories a ≤ jsIndexOf staticCategories b) ∨
          (a ∈ staticCategories ∧ b ∉ staticCategories) ∨
          (a ∉ staticCategories ∧ b ∉ staticCategories ∧ a ≤ b))
          (categories [videoA])) :=
  ⟨by decide, claim_C7_order [videoA] (by decide)⟩

/-- Claim C8: the video filter is idempotent. -/
theorem claim_C8_idempotent :
    ∀ (rs : List Video) (c s : String),
      filterVideos (filterVideos rs c s) c s = filterVideos rs c s := by
  intro rs c s
  conv_lhs => rw [filterVideos_eq_filter, filterVideos_eq_filter]
  conv_rhs => rw [filterVideos_eq_filter]
  rw [List.filter_filter]
  exact List.filter_congr (fun v _ => Bool.and_self _)

/-- Claim C9: the four core functions are total Lean functions, and in
particular: an absent tags sequence filters exactly like an empty one and
reconciles exactly like an empty one, an absent duration formats to absent,
the reconciler and the detector always return a non-empty list, and the
filter always returns a sublist of its input. -/
theorem claim_C9_totality :
    (∀ (c s : String) (v : Video),
        keepVideo c s { v with tags := none } =
          keepVideo c s { v with tags := some [] }) ∧
      (∀ (v : Video) (rs : List Video),
        categories ({ v with tags := none } :: rs) =
          categories ({ v with tags := some [] } :: rs)) ∧
      formatDuration none = none ∧
      (∀ rs : List Video, categories rs ≠ []) ∧
      (∀ t d : String, detectCategoriesFromContent t d ≠ []) ∧
      (∀ (rs : List Video) (c s : String), (filterVideos rs c s).Sublist rs) := by
  refine ⟨fun c s v => rfl, fun v rs => rfl, rfl, ?_, ?_, ?_⟩
  · intro rs
    by_cases hA : (allUniqueCategories rs).length > 0
    · rw [categories_eq_sort rs hA]
      intro hnil
      have hperm := List.perm_insertionSort catle
        ("All" :: dedupFirst (staticCategories.tail ++
          List.insertionSort strle (allUniqueCategories rs)))
      rw [hnil] at hperm
      have hlen := hperm.length_eq
      simp at hlen
    · rw [categories, if_neg hA]
      simp [staticCategories]
  · intro t d
    rw [detect_eq_matched]
    by_cases hm : matchedCategories t d = []
    · rw [if_pos hm]; simp
    · rw [if_neg hm]; exact hm
  · intro rs c s
    rw [filterVideos_eq_filter]
    exact List.filter_sublist rs

/-- Claim C10: the duration pattern is unanchored and all its numeric groups
are optional, so every input containing `"PT"` formats to a present result;
in particular `"PT"` and `"xPTy"` format to `"0:00"`. -/
theorem claim_C10_unanchored :
    (∀ s : String, ['P', 'T'] <:+: s.data →
        ∃ out, formatDuration (some s) = some out) ∧
      formatDuration (some "PT") = some "0:00" ∧
      formatDuration (some "xPTy") = some "0:00" := by
  refine ⟨?_, by decide, by decide⟩
  intro s hinf
  obtain ⟨⟨h, m, sec⟩, hp⟩ := parsePT_some_of_PT s hinf
  rw [formatDuration_of_parsePT s h m sec hp]
  exact ⟨_, rfl⟩

/-- Claim C10, witness at a concrete input containing `"PT"`. -/
theorem claim_C10_witness :
    (['P', 'T'] <:+: "gPTg".data) ∧
      ∃ out, formatDuration (some "gPTg") = some out :=
  ⟨by decide, claim_C10_unanchored.1 "gPTg" (by decide)⟩

end Blog1
